import Mathlib

/-!
Verification of the polynomial-normalization core of the Yices arithmetic
front end: the red-black arithmetic buffer (`rba_buffer`), the expression
bridge (`rba_buffer_terms.c`), the thread-local buffer stores
(`ibuffer_store` / `pbuffer_store`), and the finite-domain utilities of
`term_utils.c`.

The embedding is shallow and functional.  The external Monomial Order is
modelled by the lexicographic order on `List Nat` (a power product is the
list of its variables, one occurrence per exponent unit; the empty list is
the empty power product, i.e. the constant monomial).  Rational
coefficients are `ℚ`.  The buffer itself is represented by its canonical
content: the strictly ordered list of (power product, coefficient) pairs
with non-zero coefficients, which is exactly the canonical form the
red-black tree maintains.  The implementation file of `rba_buffer`
(`balanced_arith_buffers.c`) is not part of the provided sources, so the
buffer primitives are modelled from the spec, as indicated in their doc
comments; the bridge, the buffer stores and the finite-domain code are
translated from the provided C sources.
-/

namespace YicesRBA

/-! ## Power products and the monomial order -/

/-- A power product: the list of its variables, one occurrence per exponent
unit.  The Monomial Order is external to this code slice; it is modelled by
the lexicographic linear order on `List Nat`. -/
abbrev pprod_t := List Nat

/-- The empty power product (the constant monomial `1`). -/
def empty_pp : pprod_t := []

/-- The power product of a single variable (degree 1). -/
def var_pp (v : Nat) : pprod_t := [v]

/-- Modelled from the spec: product of two power products (multiset union of
the variable occurrences, kept in a canonical sorted form). -/
def pprod_mul (p q : pprod_t) : pprod_t :=
  List.insertionSort (fun a b => a ≤ b) (p ++ q)

/-- Modelled from the spec: `pprod_exp ptbl p d` builds `p^d`; `p^0` is the
empty power product. -/
def pprod_exp (p : pprod_t) (d : Nat) : pprod_t :=
  match d with
  | 0 => empty_pp
  | d + 1 => pprod_mul (pprod_exp p d) p

/-- Modelled from the spec: `pprod_varexp ptbl x d` builds `x^d`; with
`d = 0` this is the empty power product. -/
def pprod_varexp (v : Nat) (d : Nat) : pprod_t :=
  List.replicate d v

/-! ## The polynomial buffer, by its canonical content

The red-black tree implementation is not in the provided sources; the
buffer is modelled from the spec by the canonical polynomial it stores: a
list of (power product, coefficient) entries that is strictly increasing
in the Monomial Order and contains no zero coefficient (spec invariants 1
and 4).  Every mutation below preserves that canonical form. -/

/-- The buffer content: an association list from power products to rational
coefficients, canonical when sorted and zero-free. -/
abbrev rba_buffer_t := List (pprod_t × ℚ)

/-- Read the coefficient stored for power product `p` (0 when absent). -/
def rba_lookup (b : rba_buffer_t) (p : pprod_t) : ℚ :=
  match b with
  | [] => 0
  | (q, c) :: rest => if p = q then c else rba_lookup rest p

/-- Canonical form of a buffer: entries strictly increasing in the monomial
order and no zero coefficient stored (spec invariants 1 and 4). -/
def rba_canonical (b : rba_buffer_t) : Prop :=
  List.Pairwise (fun e1 e2 => e1.1 < e2.1) b ∧ ∀ e ∈ b, e.2 ≠ 0

/-- Modelled from the spec: merge a monomial `a * p` (with `a ≠ 0`) into the
canonical content — descend to the entry for `p`, add `a` to its
coefficient, delete the entry when the sum is zero, insert a fresh entry at
the ordered position when `p` is absent. -/
def rba_merge (a : ℚ) (p : pprod_t) : rba_buffer_t → rba_buffer_t
  | [] => [(p, a)]
  | (q, c) :: rest =>
    if p = q then
      (if a + c = 0 then rest else (q, a + c) :: rest)
    else if p < q then (p, a) :: (q, c) :: rest
    else (q, c) :: rba_merge a p rest

/-- Modelled from the spec: `rba_buffer_add_mono b a p` adds `a * p` to the
buffer; adding a zero coefficient is a no-op (no zero entry is ever
created). -/
def rba_buffer_add_mono (b : rba_buffer_t) (a : ℚ) (p : pprod_t) : rba_buffer_t :=
  if a = 0 then b else rba_merge a p b

/-- Modelled from the spec: add power product `p` (coefficient 1). -/
def rba_buffer_add_pp (b : rba_buffer_t) (p : pprod_t) : rba_buffer_t :=
  rba_buffer_add_mono b 1 p

/-- Modelled from the spec: subtract power product `p` (coefficient -1). -/
def rba_buffer_sub_pp (b : rba_buffer_t) (p : pprod_t) : rba_buffer_t :=
  rba_buffer_add_mono b (-1) p

/-- Modelled from the spec: add the constant `c` (the empty power product). -/
def rba_buffer_add_const (b : rba_buffer_t) (c : ℚ) : rba_buffer_t :=
  rba_buffer_add_mono b c empty_pp

/-- Modelled from the spec: subtract the constant `c`. -/
def rba_buffer_sub_const (b : rba_buffer_t) (c : ℚ) : rba_buffer_t :=
  rba_buffer_add_mono b (-c) empty_pp

/-- Modelled from the spec: add variable `v` as an atomic monomial of
degree 1. -/
def rba_buffer_add_var (b : rba_buffer_t) (v : Nat) : rba_buffer_t :=
  rba_buffer_add_mono b 1 (var_pp v)

/-- Modelled from the spec: subtract variable `v`. -/
def rba_buffer_sub_var (b : rba_buffer_t) (v : Nat) : rba_buffer_t :=
  rba_buffer_add_mono b (-1) (var_pp v)

/-- Modelled from the spec: add `a * v` for variable `v`. -/
def rba_buffer_add_varmono (b : rba_buffer_t) (a : ℚ) (v : Nat) : rba_buffer_t :=
  rba_buffer_add_mono b a (var_pp v)

/-- A monomial array, as handed to the buffer by the bridge: a list of
(coefficient, power product) pairs. -/
abbrev monarray_t := List (ℚ × pprod_t)

/-- Modelled from the spec: add every monomial of the array to the buffer. -/
def rba_buffer_add_monarray (b : rba_buffer_t) (m : monarray_t) : rba_buffer_t :=
  m.foldl (fun acc mo => rba_buffer_add_mono acc mo.1 mo.2) b

/-- Modelled from the spec: subtract every monomial of the array. -/
def rba_buffer_sub_monarray (b : rba_buffer_t) (m : monarray_t) : rba_buffer_t :=
  m.foldl (fun acc mo => rba_buffer_add_mono acc (-mo.1) mo.2) b

/-- Modelled from the spec: add `a` times every monomial of the array. -/
def rba_buffer_add_const_times_monarray (b : rba_buffer_t) (m : monarray_t)
    (a : ℚ) : rba_buffer_t :=
  m.foldl (fun acc mo => rba_buffer_add_mono acc (a * mo.1) mo.2) b

/-- Modelled from the spec: multiply every coefficient by `c`; a zero
multiplier empties the buffer (no zero entry may remain stored). -/
def rba_buffer_mul_const (b : rba_buffer_t) (c : ℚ) : rba_buffer_t :=
  if c = 0 then [] else b.map (fun e => (e.1, c * e.2))

/-- Modelled from the spec: multiply every stored power product by `p`,
extracting all entries and re-inserting them since the monomial order is
not preserved; multiplying by the empty power product is the documented
identity fast path. -/
def rba_buffer_mul_pp (b : rba_buffer_t) (p : pprod_t) : rba_buffer_t :=
  if p = empty_pp then b
  else
    (b.map (fun e => (pprod_mul e.1 p, e.2))).foldl
      (fun acc e => rba_buffer_add_mono acc e.2 e.1) []

/-- Modelled from the spec: multiply the buffer by variable `v`. -/
def rba_buffer_mul_var (b : rba_buffer_t) (v : Nat) : rba_buffer_t :=
  rba_buffer_mul_pp b (var_pp v)

/-- Modelled from the spec: multiply the buffer by the polynomial given as a
monomial array (bilinear product, accumulated into a fresh buffer). -/
def rba_buffer_mul_monarray (b : rba_buffer_t) (m : monarray_t) : rba_buffer_t :=
  b.foldl
    (fun acc e =>
      m.foldl (fun acc2 mo => rba_buffer_add_mono acc2 (e.2 * mo.1) (pprod_mul e.1 mo.2)) acc)
    []

/-- Modelled from the spec: multiply the buffer by the `d`-th power of the
polynomial `m`; `d = 0` is defined as multiplying by the constant 1, i.e. a
no-op, and `d + 1` is one more polynomial multiplication (the auxiliary
buffer of the C code is implicit in the functional model). -/
def rba_buffer_mul_monarray_power (b : rba_buffer_t) (m : monarray_t) (d : Nat) :
    rba_buffer_t :=
  match d with
  | 0 => b
  | d + 1 => rba_buffer_mul_monarray (rba_buffer_mul_monarray_power b m d) m

/-- `q_mulexp q c d` multiplies `q` by `c^d` (`rationals.h`). -/
def q_mulexp (q c : ℚ) (d : Nat) : ℚ := q * c ^ d

/-! ## The expression bridge (`rba_buffer_terms.c`)

An arithmetic term, as the bridge sees it through the term table: the
discriminant `table->kind[index_of(t)]` selects one of `POWER_PRODUCT`,
`ARITH_CONSTANT`, `ARITH_POLY`, or falls to the `default:` branch for every
other arithmetic term kind. -/

/-- The term kinds an arithmetic term can carry, as listed in `terms.h`;
only the first three are given dedicated cases by the bridge switches. -/
inductive term_kind_t where
  | POWER_PRODUCT
  | ARITH_CONSTANT
  | ARITH_POLY
  | UNINTERPRETED_TERM
  | VARIABLE
  | ITE_TERM
  | ITE_SPECIAL
  | APP_TERM
  | ARITH_FLOOR
  | ARITH_CEIL
  | ARITH_ABS
  | ARITH_IDIV
  | ARITH_MOD
  | ARITH_RDIV
  deriving DecidableEq, Fintype

/-- The kinds that do not get a dedicated case in the bridge switches; they
all fall to the `default:` branch and are treated as opaque variables. -/
inductive other_kind_t where
  | UNINTERPRETED_TERM
  | VARIABLE
  | ITE_TERM
  | ITE_SPECIAL
  | APP_TERM
  | ARITH_FLOOR
  | ARITH_CEIL
  | ARITH_ABS
  | ARITH_IDIV
  | ARITH_MOD
  | ARITH_RDIV
  deriving DecidableEq

/-- An arithmetic term together with the payload the term table returns for
its kind: a power product, a rational constant, a polynomial (monomial
array, already converted to power-product references), or any other
arithmetic term, dispatched by the `default:` branch on its term id. -/
inductive arith_term_t where
  | pp (p : pprod_t)
  | const (c : ℚ)
  | poly (m : monarray_t)
  | var (v : Nat) (k : other_kind_t)
  deriving DecidableEq

/-- The term-table discriminant of a term (`table->kind[index_of(t)]`). -/
def term_kind : arith_term_t → term_kind_t
  | .pp _ => .POWER_PRODUCT
  | .const _ => .ARITH_CONSTANT
  | .poly _ => .ARITH_POLY
  | .var _ k =>
    match k with
    | .UNINTERPRETED_TERM => .UNINTERPRETED_TERM
    | .VARIABLE => .VARIABLE
    | .ITE_TERM => .ITE_TERM
    | .ITE_SPECIAL => .ITE_SPECIAL
    | .APP_TERM => .APP_TERM
    | .ARITH_FLOOR => .ARITH_FLOOR
    | .ARITH_CEIL => .ARITH_CEIL
    | .ARITH_ABS => .ARITH_ABS
    | .ARITH_IDIV => .ARITH_IDIV
    | .ARITH_MOD => .ARITH_MOD
    | .ARITH_RDIV => .ARITH_RDIV

/-- The four buffer primitives a bridge switch can dispatch to. -/
inductive buffer_primitive_t where
  | prim_add_pp
  | prim_add_const
  | prim_add_monarray
  | prim_add_var
  deriving DecidableEq, Fintype

/-- The switch shared by every bridge entry point of `rba_buffer_terms.c`:
`POWER_PRODUCT`, `ARITH_CONSTANT` and `ARITH_POLY` each select their
primitive, every other kind falls to the `default:` branch (the variable
primitive). -/
def rba_bridge_dispatch (k : term_kind_t) : buffer_primitive_t :=
  match k with
  | .POWER_PRODUCT => .prim_add_pp
  | .ARITH_CONSTANT => .prim_add_const
  | .ARITH_POLY => .prim_add_monarray
  | _ => .prim_add_var

/-- `rba_buffer_add_term`: add term `t` to buffer `b`. -/
def rba_buffer_add_term (b : rba_buffer_t) (t : arith_term_t) : rba_buffer_t :=
  match t with
  | .pp p => rba_buffer_add_pp b p
  | .const c => rba_buffer_add_const b c
  | .poly m => rba_buffer_add_monarray b m
  | .var v _ => rba_buffer_add_var b v

/-- `rba_buffer_sub_term`: subtract term `t` from buffer `b`. -/
def rba_buffer_sub_term (b : rba_buffer_t) (t : arith_term_t) : rba_buffer_t :=
  match t with
  | .pp p => rba_buffer_sub_pp b p
  | .const c => rba_buffer_sub_const b c
  | .poly m => rba_buffer_sub_monarray b m
  | .var v _ => rba_buffer_sub_var b v

/-- `rba_buffer_mul_term`: multiply buffer `b` by term `t`. -/
def rba_buffer_mul_term (b : rba_buffer_t) (t : arith_term_t) : rba_buffer_t :=
  match t with
  | .pp p => rba_buffer_mul_pp b p
  | .const c => rba_buffer_mul_const b c
  | .poly m => rba_buffer_mul_monarray b m
  | .var v _ => rba_buffer_mul_var b v

/-- `rba_buffer_add_const_times_term`: add `a * t` to buffer `b`.  The C
function receives `a` through a pointer; the embedding returns, next to the
new buffer content, the value held by that cell when the call returns.  In
the constant case the product is computed in the local rational `q`
(`q_set(&q, a); q_mul(&q, c)`), not in `a`. -/
def rba_buffer_add_const_times_term (b : rba_buffer_t) (a : ℚ) (t : arith_term_t) :
    rba_buffer_t × ℚ :=
  match t with
  | .pp p => (rba_buffer_add_mono b a p, a)
  | .const c =>
    let q := a * c
    (rba_buffer_add_const b q, a)
  | .poly m => (rba_buffer_add_const_times_monarray b m a, a)
  | .var v _ => (rba_buffer_add_varmono b a v, a)

/-- `rba_buffer_mul_term_power`: multiply buffer `b` by `t^d`. -/
def rba_buffer_mul_term_power (b : rba_buffer_t) (t : arith_term_t) (d : Nat) :
    rba_buffer_t :=
  match t with
  | .pp p => rba_buffer_mul_pp b (pprod_exp p d)
  | .const c => rba_buffer_mul_const b (q_mulexp 1 c d)
  | .poly m => rba_buffer_mul_monarray_power b m d
  | .var v _ => rba_buffer_mul_pp b (pprod_varexp v d)

/-- The entry guard of every bridge function is the statement
`assert(b->ptbl == table->pprods)`: a C `assert`, executed only when the
build does not define `NDEBUG`.  `rba_buffer_add_term_checked ndebug` runs
the guard of `rba_buffer_add_term` for the given build configuration: in a
diagnostic build (`ndebug = false`) a mismatch of the two order references
aborts the call (`none`) before any tree mutation; in a release build
(`ndebug = true`) the assertion is compiled out and the call proceeds. -/
def rba_buffer_add_term_checked (ndebug : Bool) (b_ptbl table_pprods : Nat)
    (b : rba_buffer_t) (t : arith_term_t) : Option rba_buffer_t :=
  if ndebug = false ∧ b_ptbl ≠ table_pprods then none
  else some (rba_buffer_add_term b t)

/-! ## Canonical-form machinery -/

theorem rba_lookup_eq_zero (b : rba_buffer_t) (p : pprod_t)
    (h : ∀ e ∈ b, e.1 ≠ p) : rba_lookup b p = 0 := by
  induction b with
  | nil => rfl
  | cons e rest ih =>
    obtain ⟨q, c⟩ := e
    simp only [rba_lookup]
    rw [if_neg]
    · exact ih (fun e2 he2 => h e2 (List.mem_cons_of_mem _ he2))
    · intro hpq
      exact h (q, c) (List.mem_cons_self _ _) hpq.symm

theorem rba_lookup_head (q : pprod_t) (c : ℚ) (rest : rba_buffer_t) :
    rba_lookup ((q, c) :: rest) q = c := by
  simp [rba_lookup]

theorem rba_merge_keys (a : ℚ) (p : pprod_t) (b : rba_buffer_t) :
    ∀ e ∈ rba_merge a p b, e.1 = p ∨ e ∈ b := by
  induction b with
  | nil =>
    intro e he
    simp only [rba_merge, List.mem_singleton] at he
    left
    rw [he]
  | cons hd rest ih =>
    obtain ⟨q, c⟩ := hd
    intro e he
    simp only [rba_merge] at he
    split_ifs at he with h1 h2 h3
    · right
      exact List.mem_cons_of_mem _ he
    · rcases List.mem_cons.mp he with h | h
      · left
        rw [h, ← h1]
      · right
        exact List.mem_cons_of_mem _ h
    · rcases List.mem_cons.mp he with h | h
      · left
        rw [h]
      · right
        exact h
    · rcases List.mem_cons.mp he with h | h
      · right
        rw [h]
        exact List.mem_cons_self _ _
      · rcases ih e h with h4 | h4
        · left
          exact h4
        · right
          exact List.mem_cons_of_mem _ h4

theorem rba_merge_sorted (a : ℚ) (p : pprod_t) (b : rba_buffer_t)
    (hb : List.Pairwise (fun e1 e2 => e1.1 < e2.1) b) :
    List.Pairwise (fun e1 e2 => e1.1 < e2.1) (rba_merge a p b) := by
  induction b with
  | nil => simp [rba_merge]
  | cons hd rest ih =>
    obtain ⟨q, c⟩ := hd
    rw [List.pairwise_cons] at hb
    obtain ⟨hq, hrest⟩ := hb
    simp only [rba_merge]
    split_ifs with h1 h2 h3
    · exact hrest
    · exact List.pairwise_cons.mpr ⟨hq, hrest⟩
    · refine List.pairwise_cons.mpr ⟨?_, List.pairwise_cons.mpr ⟨hq, hrest⟩⟩
      intro e he
      rcases List.mem_cons.mp he with h | h
      · rw [h]
        exact h3
      · exact lt_trans h3 (hq e h)
    · refine List.pairwise_cons.mpr ⟨?_, ih hrest⟩
      intro e he
      rcases rba_merge_keys a p rest e he with h | h
      · rw [h]
        exact lt_of_le_of_ne (not_lt.mp h3) (fun hqp => h1 hqp.symm)
      · exact hq e h

theorem rba_merge_nonzero (a : ℚ) (p : pprod_t) (b : rba_buffer_t)
    (ha : a ≠ 0) (hb : ∀ e ∈ b, e.2 ≠ 0) :
    ∀ e ∈ rba_merge a p b, e.2 ≠ 0 := by
  induction b with
  | nil =>
    intro e he
    simp only [rba_merge, List.mem_singleton] at he
    rw [he]
    exact ha
  | cons hd rest ih =>
    obtain ⟨q, c⟩ := hd
    intro e he
    simp only [rba_merge] at he
    split_ifs at he with h1 h2 h3
    · exact hb e (List.mem_cons_of_mem _ he)
    · rcases List.mem_cons.mp he with h | h
      · rw [h]
        exact h2
      · exact hb e (List.mem_cons_of_mem _ h)
    · rcases List.mem_cons.mp he with h | h
      · rw [h]
        exact ha
      · exact hb e h
    · rcases List.mem_cons.mp he with h | h
      · exact hb e (by rw [h]; exact List.mem_cons_self _ _)
      · exact ih (fun e2 he2 => hb e2 (List.mem_cons_of_mem _ he2)) e h

theorem rba_canonical_add_mono (b : rba_buffer_t) (a : ℚ) (p : pprod_t)
    (hb : rba_canonical b) : rba_canonical (rba_buffer_add_mono b a p) := by
  unfold rba_buffer_add_mono
  split_ifs with ha
  · exact hb
  · exact ⟨rba_merge_sorted a p b hb.1, rba_merge_nonzero a p b ha hb.2⟩

theorem rba_lookup_merge (a : ℚ) (p : pprod_t) (b : rba_buffer_t)
    (hb : List.Pairwise (fun e1 e2 => e1.1 < e2.1) b) (x : pprod_t) :
    rba_lookup (rba_merge a p b) x = rba_lookup b x + (if x = p then a else 0) := by
  induction b with
  | nil =>
    simp only [rba_merge, rba_lookup]
    by_cases h : x = p <;> simp [h]
  | cons hd rest ih =>
    obtain ⟨q, c⟩ := hd
    rw [List.pairwise_cons] at hb
    obtain ⟨hq, hrest⟩ := hb
    by_cases h1 : p = q
    · subst h1
      by_cases h2 : a + c = 0
      · -- hit, coefficient cancels: the entry for p is removed
        rw [show rba_merge a p ((p, c) :: rest) = rest by simp [rba_merge, h2]]
        by_cases hx : x = p
        · subst hx
          have hz := rba_lookup_eq_zero rest x (fun e2 he2 => ne_of_gt (hq e2 he2))
          simp [rba_lookup, hz]
          linarith
        · simp [rba_lookup, hx]
      · -- hit, coefficients merged in place
        rw [show rba_merge a p ((p, c) :: rest) = (p, a + c) :: rest by
          simp [rba_merge, h2]]
        by_cases hx : x = p
        · subst hx
          simp [rba_lookup]
          ring
        · simp [rba_lookup, hx]
    · by_cases h3 : p < q
      · -- fresh entry inserted in front of q
        rw [show rba_merge a p ((q, c) :: rest) = (p, a) :: (q, c) :: rest by
          simp [rba_merge, h1, h3]]
        by_cases hx : x = p
        · subst hx
          have hz := rba_lookup_eq_zero rest x
            (fun e2 he2 => ne_of_gt (lt_trans h3 (hq e2 he2)))
          simp [rba_lookup, hz, h1]
        · simp [rba_lookup, hx]
      · -- descend to the right of q
        rw [show rba_merge a p ((q, c) :: rest) = (q, c) :: rba_merge a p rest by
          simp [rba_merge, h1, h3]]
        by_cases hx : x = q
        · subst hx
          have hxp : ¬x = p := fun hh => h1 hh.symm
          simp [rba_lookup, hxp]
        · simp only [rba_lookup, if_neg hx]
          exact ih hrest

theorem rba_lookup_add_mono (b : rba_buffer_t) (a : ℚ) (p : pprod_t)
    (hb : List.Pairwise (fun e1 e2 => e1.1 < e2.1) b) (x : pprod_t) :
    rba_lookup (rba_buffer_add_mono b a p) x
      = rba_lookup b x + (if x = p then a else 0) := by
  unfold rba_buffer_add_mono
  by_cases ha : a = 0
  · subst ha
    simp
  · rw [if_neg ha]
    exact rba_lookup_merge a p b hb x

theorem rba_canonical_tail (e : pprod_t × ℚ) (b : rba_buffer_t)
    (h : rba_canonical (e :: b)) : rba_canonical b :=
  ⟨(List.pairwise_cons.mp h.1).2, fun e2 he2 => h.2 e2 (List.mem_cons_of_mem _ he2)⟩

theorem rba_canonical_ext (b1 : rba_buffer_t) : ∀ b2 : rba_buffer_t,
    rba_canonical b1 → rba_canonical b2 →
    (∀ p, rba_lookup b1 p = rba_lookup b2 p) → b1 = b2 := by
  induction b1 with
  | nil =>
    intro b2 _ h2 h
    cases b2 with
    | nil => rfl
    | cons e rest =>
      obtain ⟨q, c⟩ := e
      have hc := h q
      rw [rba_lookup_head] at hc
      simp only [rba_lookup] at hc
      exact absurd hc.symm (h2.2 (q, c) (List.mem_cons_self _ _))
  | cons e1 rest1 ih =>
    intro b2 h1 h2 h
    obtain ⟨q1, c1⟩ := e1
    cases b2 with
    | nil =>
      have hc := h q1
      rw [rba_lookup_head] at hc
      simp only [rba_lookup] at hc
      exact absurd hc (h1.2 (q1, c1) (List.mem_cons_self _ _))
    | cons e2 rest2 =>
      obtain ⟨q2, c2⟩ := e2
      have hb1 := (List.pairwise_cons.mp h1.1).1
      have hb2 := (List.pairwise_cons.mp h2.1).1
      have hq : q1 = q2 := by
        rcases lt_trichotomy q1 q2 with hlt | heq | hgt
        · exfalso
          have hz : rba_lookup ((q2, c2) :: rest2) q1 = 0 := by
            apply rba_lookup_eq_zero
            intro e he
            rcases List.mem_cons.mp he with hh | hh
            · rw [hh]
              exact ne_of_gt hlt
            · exact ne_of_gt (lt_trans hlt (hb2 e hh))
          have hv := h q1
          rw [rba_lookup_head, hz] at hv
          exact h1.2 (q1, c1) (List.mem_cons_self _ _) hv
        · exact heq
        · exfalso
          have hz : rba_lookup ((q1, c1) :: rest1) q2 = 0 := by
            apply rba_lookup_eq_zero
            intro e he
            rcases List.mem_cons.mp he with hh | hh
            · rw [hh]
              exact ne_of_gt hgt
            · exact ne_of_gt (lt_trans hgt (hb1 e hh))
          have hv := h q2
          rw [rba_lookup_head, hz] at hv
          exact h2.2 (q2, c2) (List.mem_cons_self _ _) hv.symm
      subst hq
      have hc : c1 = c2 := by
        have hv := h q1
        rw [rba_lookup_head, rba_lookup_head] at hv
        exact hv
      subst hc
      congr 1
      apply ih rest2 (rba_canonical_tail _ _ h1) (rba_canonical_tail _ _ h2)
      intro p
      by_cases hp : p = q1
      · subst hp
        rw [rba_lookup_eq_zero rest1 p (fun e he => ne_of_gt (hb1 e he)),
          rba_lookup_eq_zero rest2 p (fun e he => ne_of_gt (hb2 e he))]
      · have hv := h p
        simp only [rba_lookup, if_neg hp] at hv
        exact hv

/-- The entries a buffer stores for power product `p`. -/
def rba_entries_for (b : rba_buffer_t) (p : pprod_t) : List (pprod_t × ℚ) :=
  b.filter (fun e => decide (e.1 = p))

theorem rba_entries_for_nil (b : rba_buffer_t) (p : pprod_t)
    (h : ∀ e ∈ b, e.1 ≠ p) : rba_entries_for b p = [] := by
  rw [rba_entries_for, List.filter_eq_nil_iff]
  intro e he
  simp [h e he]

theorem rba_entries_for_eq (b : rba_buffer_t) (p : pprod_t) (hb : rba_canonical b) :
    rba_entries_for b p =
      if rba_lookup b p = 0 then [] else [(p, rba_lookup b p)] := by
  induction b with
  | nil => simp [rba_entries_for, rba_lookup]
  | cons e rest ih =>
    obtain ⟨q, c⟩ := e
    have hq := (List.pairwise_cons.mp hb.1).1
    have htl := rba_canonical_tail _ _ hb
    by_cases hpq : q = p
    · subst hpq
      have hfz : rba_entries_for rest q = [] :=
        rba_entries_for_nil rest q (fun e2 he2 => ne_of_gt (hq e2 he2))
      have hcz : c ≠ 0 := hb.2 (q, c) (List.mem_cons_self _ _)
      rw [rba_lookup_head, if_neg hcz]
      rw [show rba_entries_for ((q, c) :: rest) q = (q, c) :: rba_entries_for rest q
        from by simp [rba_entries_for, List.filter_cons]]
      rw [hfz]
    · have hqp : ¬p = q := fun hh => hpq hh.symm
      rw [show rba_entries_for ((q, c) :: rest) p = rba_entries_for rest p
        from by simp [rba_entries_for, List.filter_cons, hpq]]
      rw [show rba_lookup ((q, c) :: rest) p = rba_lookup rest p
        from by simp [rba_lookup, hqp]]
      exact ih htl

/-- The value of a monomial array at power product `x`: the sum of the
coefficients of its monomials whose power product is `x`. -/
def poly_eval (m : monarray_t) (x : pprod_t) : ℚ :=
  (m.map (fun mo => if x = mo.2 then mo.1 else 0)).sum

theorem fold_add_mono_char (f : ℚ → ℚ) (a : ℚ) (hf : ∀ y, f y = a * y)
    (m : monarray_t) : ∀ b : rba_buffer_t, rba_canonical b →
    rba_canonical (m.foldl (fun acc mo => rba_buffer_add_mono acc (f mo.1) mo.2) b) ∧
    ∀ x, rba_lookup (m.foldl (fun acc mo => rba_buffer_add_mono acc (f mo.1) mo.2) b) x
      = rba_lookup b x + a * poly_eval m x := by
  induction m with
  | nil =>
    intro b hb
    refine ⟨hb, ?_⟩
    intro x
    simp [poly_eval]
  | cons mo rest ih =>
    intro b hb
    have hb2 : rba_canonical (rba_buffer_add_mono b (f mo.1) mo.2) :=
      rba_canonical_add_mono b (f mo.1) mo.2 hb
    obtain ⟨hcan, hchar⟩ := ih (rba_buffer_add_mono b (f mo.1) mo.2) hb2
    constructor
    · simpa [List.foldl_cons] using hcan
    · intro x
      rw [List.foldl_cons, hchar x,
        rba_lookup_add_mono b (f mo.1) mo.2 hb.1 x]
      simp only [poly_eval, List.map_cons, List.sum_cons]
      rw [hf]
      by_cases hx : x = mo.2
      · simp [hx]
        ring
      · simp [hx]

/-! ## Sequences of bridge operations on one buffer -/

/-- One algebraic operation applied to a buffer through the bridge: the five
entry points of `rba_buffer_terms.c`. -/
inductive arith_op_t where
  | add_op (t : arith_term_t)
  | sub_op (t : arith_term_t)
  | mul_op (t : arith_term_t)
  | addmul_op (a : ℚ) (t : arith_term_t)
  | mulpow_op (t : arith_term_t) (d : Nat)
  deriving DecidableEq

/-- Apply one bridge operation to the buffer. -/
def apply_arith_op (b : rba_buffer_t) : arith_op_t → rba_buffer_t
  | .add_op t => rba_buffer_add_term b t
  | .sub_op t => rba_buffer_sub_term b t
  | .mul_op t => rba_buffer_mul_term b t
  | .addmul_op a t => (rba_buffer_add_const_times_term b a t).1
  | .mulpow_op t d => rba_buffer_mul_term_power b t d

/-- Apply a sequence of bridge operations, in order. -/
def rba_buffer_apply_ops (b : rba_buffer_t) (ops : List arith_op_t) : rba_buffer_t :=
  ops.foldl apply_arith_op b

/-- The additive operations: add, subtract and scaled add (the operations
that fold monomials into the buffer without rebuilding it). -/
def arith_op_additive : arith_op_t → Bool
  | .add_op _ => true
  | .sub_op _ => true
  | .addmul_op _ _ => true
  | _ => false

/-- The monomials a term shape contributes through the bridge. -/
def term_monos : arith_term_t → monarray_t
  | .pp p => [(1, p)]
  | .const c => [(c, empty_pp)]
  | .poly m => m
  | .var v _ => [(1, var_pp v)]

/-- The coefficient a term contributes at power product `x`. -/
def term_contrib (t : arith_term_t) (x : pprod_t) : ℚ :=
  poly_eval (term_monos t) x

/-- The coefficient an additive operation contributes at power product `x`
(multiplicative operations are excluded by `arith_op_additive`). -/
def op_contrib (op : arith_op_t) (x : pprod_t) : ℚ :=
  match op with
  | .add_op t => term_contrib t x
  | .sub_op t => -term_contrib t x
  | .addmul_op a t => a * term_contrib t x
  | _ => 0

theorem add_term_as_fold (b : rba_buffer_t) (t : arith_term_t) :
    rba_buffer_add_term b t
      = (term_monos t).foldl (fun acc mo => rba_buffer_add_mono acc mo.1 mo.2) b := by
  cases t <;> rfl

theorem sub_term_as_fold (b : rba_buffer_t) (t : arith_term_t) :
    rba_buffer_sub_term b t
      = (term_monos t).foldl (fun acc mo => rba_buffer_add_mono acc (-mo.1) mo.2) b := by
  cases t <;> rfl

theorem addmul_term_as_fold (b : rba_buffer_t) (a : ℚ) (t : arith_term_t) :
    (rba_buffer_add_const_times_term b a t).1
      = (term_monos t).foldl (fun acc mo => rba_buffer_add_mono acc (a * mo.1) mo.2) b := by
  cases t <;>
    simp [rba_buffer_add_const_times_term, term_monos, rba_buffer_add_varmono,
      rba_buffer_add_const, rba_buffer_add_const_times_monarray, mul_one]

theorem apply_additive_char (op : arith_op_t) (hop : arith_op_additive op = true)
    (b : rba_buffer_t) (hb : rba_canonical b) :
    rba_canonical (apply_arith_op b op) ∧
    ∀ x, rba_lookup (apply_arith_op b op) x = rba_lookup b x + op_contrib op x := by
  cases op with
  | add_op t =>
    have h := fold_add_mono_char (fun y => y) 1 (fun y => (one_mul y).symm)
      (term_monos t) b hb
    rw [show apply_arith_op b (arith_op_t.add_op t) = rba_buffer_add_term b t from rfl,
      add_term_as_fold b t]
    exact ⟨by simpa using h.1,
      fun x => by simpa [op_contrib, term_contrib] using h.2 x⟩
  | sub_op t =>
    have h := fold_add_mono_char (fun y => -y) (-1) (fun y => by ring)
      (term_monos t) b hb
    rw [show apply_arith_op b (arith_op_t.sub_op t) = rba_buffer_sub_term b t from rfl,
      sub_term_as_fold b t]
    refine ⟨by simpa using h.1, fun x => ?_⟩
    have h2 := h.2 x
    simp only [op_contrib, term_contrib]
    rw [show ((-1 : ℚ)) * poly_eval (term_monos t) x
      = -poly_eval (term_monos t) x from by ring] at h2
    simpa using h2
  | addmul_op a t =>
    have h := fold_add_mono_char (fun y => a * y) a (fun y => rfl)
      (term_monos t) b hb
    rw [show apply_arith_op b (arith_op_t.addmul_op a t)
        = (rba_buffer_add_const_times_term b a t).1 from rfl,
      addmul_term_as_fold b a t]
    exact ⟨by simpa using h.1,
      fun x => by simpa [op_contrib, term_contrib] using h.2 x⟩
  | mul_op t => simp [arith_op_additive] at hop
  | mulpow_op t d => simp [arith_op_additive] at hop

theorem apply_ops_char (ops : List arith_op_t) : ∀ b : rba_buffer_t,
    rba_canonical b → (∀ op ∈ ops, arith_op_additive op = true) →
    rba_canonical (rba_buffer_apply_ops b ops) ∧
    ∀ x, rba_lookup (rba_buffer_apply_ops b ops) x
      = rba_lookup b x + (ops.map (fun op => op_contrib op x)).sum := by
  induction ops with
  | nil =>
    intro b hb _
    exact ⟨hb, by simp [rba_buffer_apply_ops]⟩
  | cons op rest ih =>
    intro b hb hops
    have hop := hops op (List.mem_cons_self _ _)
    obtain ⟨h1, h2⟩ := apply_additive_char op hop b hb
    obtain ⟨h3, h4⟩ := ih (apply_arith_op b op) h1
      (fun o ho => hops o (List.mem_cons_of_mem _ ho))
    refine ⟨by simpa [rba_buffer_apply_ops] using h3, fun x => ?_⟩
    have h5 := h4 x
    simp only [rba_buffer_apply_ops, List.foldl_cons] at h5 ⊢
    rw [h5, h2 x, List.map_cons, List.sum_cons]
    ring

/-! ## Thread-local buffer stores (`ibuffer_store.c` / `pbuffer_store.c`)

The two C stores are the same code up to the element type (`ivector_t` of
32-bit integers, `pvector_t` of pointers); they are embedded once,
parametric in the element type, and instantiated twice below.  A store
holds the doubly-linked free list as the list of its elements in list
order (`list.next` first) plus a counter distinguishing the fresh elements
`safe_malloc` hands out; a buffer element is its identity plus its current
contents (vector capacity, which `resize` touches, holds no elements and is
not part of the content model). -/

structure buffer_elem_t (α : Type) where
  elem_id : Nat
  data : List α
  deriving DecidableEq

structure buffer_store_t (α : Type) where
  free_list : List (buffer_elem_t α)
  fresh : Nat
  deriving DecidableEq

/-- `init_ibuffer_store` / `init_pbuffer_store`: clear the free list. -/
def init_buffer_store {α : Type} : buffer_store_t α :=
  { free_list := [], fresh := 0 }

/-- `alloc_ibuffer(n)` / `alloc_pbuffer(n)`: when the free list is empty,
malloc a fresh element and init its vector (0 elements, capacity `n`);
otherwise remove the first list element and resize its vector (capacity
only, contents untouched). -/
def alloc_buffer {α : Type} (s : buffer_store_t α) (n : Nat) :
    buffer_store_t α × buffer_elem_t α :=
  match s.free_list with
  | [] => ({ s with fresh := s.fresh + 1 }, { elem_id := s.fresh, data := [] })
  | e :: rest => ({ s with free_list := rest }, e)

/-- `free_ibuffer(b)` / `free_pbuffer(b)`: reset the vector, then insert its
element right after the list header, making it the first buffer in the list
so that it is immediately reused when a new buffer is requested. -/
def free_buffer {α : Type} (s : buffer_store_t α) (b : buffer_elem_t α) :
    buffer_store_t α :=
  { s with free_list := { b with data := [] } :: s.free_list }

/-- The teardown loop of `delete_ibuffer_store` / `delete_pbuffer_store`:
walk the free list from `list.next` to the header, deleting the vector and
freeing each element visited; returns the elements freed, in visit order. -/
def delete_store_loop {α : Type} : List (buffer_elem_t α) → List (buffer_elem_t α)
  | [] => []
  | e :: rest => e :: delete_store_loop rest

/-- `delete_ibuffer_store` / `delete_pbuffer_store`: run the teardown loop
over the free list, then clear the list.  Returns the freed elements and
the store left behind. -/
def delete_buffer_store {α : Type} (s : buffer_store_t α) :
    List (buffer_elem_t α) × buffer_store_t α :=
  (delete_store_loop s.free_list, { free_list := [], fresh := s.fresh })

/-- The integer-buffer store (`ivector_t` elements hold 32-bit integers). -/
def alloc_ibuffer (s : buffer_store_t Int) (n : Nat) :
    buffer_store_t Int × buffer_elem_t Int :=
  alloc_buffer s n

def free_ibuffer (s : buffer_store_t Int) (b : buffer_elem_t Int) :
    buffer_store_t Int :=
  free_buffer s b

def delete_ibuffer_store (s : buffer_store_t Int) :
    List (buffer_elem_t Int) × buffer_store_t Int :=
  delete_buffer_store s

/-- The pointer-buffer store (`pvector_t` elements hold pointers, modelled
as addresses). -/
def alloc_pbuffer (s : buffer_store_t Nat) (n : Nat) :
    buffer_store_t Nat × buffer_elem_t Nat :=
  alloc_buffer s n

def free_pbuffer (s : buffer_store_t Nat) (b : buffer_elem_t Nat) :
    buffer_store_t Nat :=
  free_buffer s b

def delete_pbuffer_store (s : buffer_store_t Nat) :
    List (buffer_elem_t Nat) × buffer_store_t Nat :=
  delete_buffer_store s

theorem delete_store_loop_id {α : Type} (l : List (buffer_elem_t α)) :
    delete_store_loop l = l := by
  induction l with
  | nil => rfl
  | cons e rest ih => rw [delete_store_loop, ih]

/-! ## The node store of the red-black buffer (`rba_find_node` / `rba_get_node`)

`balanced_arith_buffers.c` is not in the provided sources; only its test
harness is.  Modelled from the spec: the tree, seen as a partial map from
power products to node indices, with node 0 the sentinel meaning absent,
and a supply of fresh node indices.  `find` is the read-only descent;
`get_or_insert` returns the node for `p`, creating a fresh zero-initialized
node (index `next_node`) when `p` is absent. -/

structure rba_nodes_t where
  node_entries : List (pprod_t × Nat)
  next_node : Nat
  deriving DecidableEq

/-- Well-formedness of the node store: node indices start at 1 (node 0 is
the sentinel) and stored indices are below the fresh supply. -/
def rba_nodes_wf (s : rba_nodes_t) : Prop :=
  1 ≤ s.next_node ∧ ∀ e ∈ s.node_entries, 1 ≤ e.2 ∧ e.2 < s.next_node

/-- Modelled from the spec: `rba_find_node(b, p)` — read-only lookup,
returning the node holding `p`, or node 0 when `p` is absent. -/
def rba_find_node (s : rba_nodes_t) (p : pprod_t) : Nat :=
  match s.node_entries.find? (fun e => decide (e.1 = p)) with
  | some e => e.2
  | none => 0

/-- Modelled from the spec: `rba_get_node(b, p, &new_node)` — return the
node for `p` together with the updated store and the `new_node` flag;
when `p` is absent a fresh node is attached (and the tree rebalanced),
when `p` is present nothing changes. -/
def rba_get_node (s : rba_nodes_t) (p : pprod_t) : rba_nodes_t × Nat × Bool :=
  let i := rba_find_node s p
  if i = 0 then
    ({ node_entries := (p, s.next_node) :: s.node_entries,
       next_node := s.next_node + 1 }, s.next_node, true)
  else (s, i, false)

/-! ## Finite domains of special if-then-else terms (`term_utils.c`)

Terms are their table indices (`term_t` values).  A term is either a
special if-then-else — carrying its two branch arguments and its `extra`
field, the memoized finite domain (`NULL` until the domain is first
built) — or a constant (`ARITH_CONSTANT` / `BV64_CONSTANT` /
`BV_CONSTANT` — only the constant status matters here).
`collect_finite_domain` is recursive over the hash-consed DAG; hash
consing makes every composite term's index larger than its arguments'
indices, so giving the recursion `t + 1` units of fuel makes it total
without restricting the tables it accepts. -/

inductive ite_term_kind_t where
  | ite_special (then_arg else_arg : Nat) (extra : Option (List Nat))
  | const_term
  deriving DecidableEq

/-- A term table, reduced to what `collect_finite_domain` consumes. -/
abbrev ite_term_table_t := Nat → ite_term_kind_t

/-- `add_domain(cache, v, dom)`: add all elements of the memoized domain
`dom` that are not in the cache into vector `v`, storing them in the cache
as well. -/
def add_domain : List Nat → List Nat → List Nat → List Nat × List Nat
  | cache, v, [] => (cache, v)
  | cache, v, t :: rest =>
    if t ∈ cache then add_domain cache v rest
    else add_domain (t :: cache) (v ++ [t]) rest

/-- `collect_finite_domain(tbl, cache, v, t)`: recursively collect all
constant terms reachable from `t`, remembering every visited term in
`cache` and appending each constant, at first visit, to `v`.  At a special
if-then-else whose `extra` field is non-NULL, the memoized domain is
merged through `add_domain` instead of recursing into the branches. -/
def collect_finite_domain (tbl : ite_term_table_t) :
    Nat → List Nat → List Nat → Nat → List Nat × List Nat
  | 0, cache, v, _ => (cache, v)
  | fuel + 1, cache, v, t =>
    if t ∈ cache then (cache, v)
    else
      match tbl t with
      | .ite_special _ _ (some dom) => add_domain (t :: cache) v dom
      | .ite_special a1 a2 none =>
        collect_finite_domain tbl fuel
          (collect_finite_domain tbl fuel (t :: cache) v a1).1
          (collect_finite_domain tbl fuel (t :: cache) v a1).2 a2
      | .const_term => (t :: cache, v ++ [t])

/-- The memoization invariant `special_ite_get_finite_domain` maintains:
an `extra` field is only ever set to a domain built by
`build_ite_finite_domain`, so every element of a memoized domain is a
constant term. -/
def ite_table_extras_wf (tbl : ite_term_table_t) : Prop :=
  ∀ t a1 a2 dom, tbl t = .ite_special a1 a2 (some dom) →
    ∀ x ∈ dom, tbl x = .const_term

/-- `build_ite_finite_domain(tbl, d)`: collect the constants of the then
part and the else part of the if-then-else descriptor, sort the result
(`int_array_sort`), and return it as the domain array. -/
def build_ite_finite_domain (tbl : ite_term_table_t) (then_arg else_arg : Nat) :
    List Nat :=
  List.insertionSort (fun a b => a ≤ b)
    (collect_finite_domain tbl (else_arg + 1)
      (collect_finite_domain tbl (then_arg + 1) [] [] then_arg).1
      (collect_finite_domain tbl (then_arg + 1) [] [] then_arg).2 else_arg).2

/-- The binary-search loop of `term_is_in_finite_domain`: narrow `[l, h)`
around `u` until `k = (l + h) / 2` hits `l`; returns the final `k`. -/
def finite_domain_search (data : List Nat) (u : Nat) :
    Nat → Nat → Nat → Nat
  | 0, l, _ => l
  | fuel + 1, l, h =>
    let k := (l + h) / 2
    if k = l then l
    else if u < data.getD k 0 then finite_domain_search data u fuel l k
    else finite_domain_search data u fuel k h

/-- `term_is_in_finite_domain(tbl, t, u)`, after the domain of `t` has been
fetched: binary search for `u` in the sorted domain array. -/
def term_is_in_finite_domain (dom : List Nat) (u : Nat) : Bool :=
  decide (dom.getD (finite_domain_search dom u (dom.length + 1) 0 dom.length) 0 = u)

/-- `disjoint_finite_domains(d1, d2)`: linear merge over the two sorted
arrays, failing on the first shared element, succeeding when one side is
exhausted. -/
def disjoint_finite_domains : List Nat → List Nat → Bool
  | t1 :: d1, t2 :: d2 =>
    if t1 = t2 then false
    else if t1 < t2 then disjoint_finite_domains d1 (t2 :: d2)
    else disjoint_finite_domains (t1 :: d1) d2
  | _, _ => true
termination_by d1 d2 => d1.length + d2.length

theorem add_domain_invariant (tbl : ite_term_table_t) :
    ∀ (dom cache v : List Nat),
    v.Nodup → (∀ x ∈ v, x ∈ cache) →
    (add_domain cache v dom).2.Nodup ∧
    (∀ x ∈ (add_domain cache v dom).2, x ∈ (add_domain cache v dom).1) ∧
    (∀ x ∈ cache, x ∈ (add_domain cache v dom).1) ∧
    ((∀ x ∈ v, tbl x = .const_term) → (∀ x ∈ dom, tbl x = .const_term) →
      ∀ x ∈ (add_domain cache v dom).2, tbl x = .const_term) := by
  intro dom
  induction dom with
  | nil =>
    intro cache v h1 h2
    exact ⟨h1, h2, fun x hx => hx, fun hv _ => hv⟩
  | cons t rest ih =>
    intro cache v h1 h2
    by_cases hc : t ∈ cache
    · rw [show add_domain cache v (t :: rest) = add_domain cache v rest
        from by rw [add_domain, if_pos hc]]
      obtain ⟨g1, g2, g3, g4⟩ := ih cache v h1 h2
      exact ⟨g1, g2, g3,
        fun hv hdom => g4 hv (fun x hx => hdom x (List.mem_cons_of_mem _ hx))⟩
    · rw [show add_domain cache v (t :: rest)
          = add_domain (t :: cache) (v ++ [t]) rest
        from by rw [add_domain, if_neg hc]]
      have hnd : (v ++ [t]).Nodup := by
        rw [List.nodup_append]
        refine ⟨h1, List.nodup_singleton t, ?_⟩
        intro x hx hx2
        rw [List.mem_singleton] at hx2
        subst hx2
        exact hc (h2 x hx)
      have hsub : ∀ x ∈ v ++ [t], x ∈ t :: cache := by
        intro x hx
        rw [List.mem_append, List.mem_singleton] at hx
        rcases hx with hx | hx
        · exact List.mem_cons_of_mem _ (h2 x hx)
        · subst hx
          exact List.mem_cons_self _ _
      obtain ⟨g1, g2, g3, g4⟩ := ih (t :: cache) (v ++ [t]) hnd hsub
      refine ⟨g1, g2, fun x hx => g3 x (List.mem_cons_of_mem _ hx), ?_⟩
      intro hv hdom
      apply g4
      · intro x hx
        rw [List.mem_append, List.mem_singleton] at hx
        rcases hx with hx | hx
        · exact hv x hx
        · subst hx
          exact hdom x (List.mem_cons_self _ _)
      · intro x hx
        exact hdom x (List.mem_cons_of_mem _ hx)

theorem collect_finite_domain_invariant (tbl : ite_term_table_t) :
    ∀ (fuel : Nat) (cache v : List Nat) (t : Nat),
    v.Nodup → (∀ x ∈ v, x ∈ cache) →
    (collect_finite_domain tbl fuel cache v t).2.Nodup ∧
    (∀ x ∈ (collect_finite_domain tbl fuel cache v t).2,
      x ∈ (collect_finite_domain tbl fuel cache v t).1) ∧
    (∀ x ∈ cache, x ∈ (collect_finite_domain tbl fuel cache v t).1) ∧
    (ite_table_extras_wf tbl → (∀ x ∈ v, tbl x = .const_term) →
      ∀ x ∈ (collect_finite_domain tbl fuel cache v t).2, tbl x = .const_term) := by
  intro fuel
  induction fuel with
  | zero =>
    intro cache v t h1 h2
    exact ⟨h1, h2, fun x hx => hx, fun _ hv => hv⟩
  | succ fuel ih =>
    intro cache v t h1 h2
    rw [collect_finite_domain]
    by_cases hc : t ∈ cache
    · rw [if_pos hc]
      exact ⟨h1, h2, fun x hx => hx, fun _ hv => hv⟩
    · rw [if_neg hc]
      have hstep1 : ∀ x ∈ v, x ∈ t :: cache :=
        fun x hx => List.mem_cons_of_mem _ (h2 x hx)
      match htk : tbl t with
      | .ite_special a1 a2 (some dom) =>
        obtain ⟨g1, g2, g3, g4⟩ := add_domain_invariant tbl dom (t :: cache) v h1 hstep1
        refine ⟨g1, g2, fun x hx => g3 x (List.mem_cons_of_mem _ hx), ?_⟩
        intro hwf hv
        exact g4 hv (hwf t a1 a2 dom htk)
      | .ite_special a1 a2 none =>
        obtain ⟨g1, g2, g3, g4⟩ := ih (t :: cache) v a1 h1 hstep1
        obtain ⟨k1, k2, k3, k4⟩ := ih
          (collect_finite_domain tbl fuel (t :: cache) v a1).1
          (collect_finite_domain tbl fuel (t :: cache) v a1).2 a2 g1 g2
        refine ⟨k1, k2, fun x hx => k3 x (g3 x (List.mem_cons_of_mem _ hx)), ?_⟩
        intro hwf hv
        exact k4 hwf (g4 hwf hv)
      | .const_term =>
        refine ⟨?_, ?_, ?_, ?_⟩
        · rw [List.nodup_append]
          refine ⟨h1, List.nodup_singleton t, ?_⟩
          intro x hx hx2
          rw [List.mem_singleton] at hx2
          subst hx2
          exact hc (h2 x hx)
        · intro x hx
          rw [List.mem_append, List.mem_singleton] at hx
          rcases hx with hx | hx
          · exact List.mem_cons_of_mem _ (h2 x hx)
          · subst hx
            exact List.mem_cons_self _ _
        · intro x hx
          exact List.mem_cons_of_mem _ hx
        · intro _ hv x hx
          rw [List.mem_append, List.mem_singleton] at hx
          rcases hx with hx | hx
          · exact hv x hx
          · subst hx
            exact htk

theorem build_ite_finite_domain_sorted (tbl : ite_term_table_t)
    (then_arg else_arg : Nat) :
    List.Pairwise (fun a b => a < b) (build_ite_finite_domain tbl then_arg else_arg) ∧
    (ite_table_extras_wf tbl →
      ∀ x ∈ build_ite_finite_domain tbl then_arg else_arg, tbl x = .const_term) := by
  obtain ⟨g1, g2, _, g4⟩ := collect_finite_domain_invariant tbl (then_arg + 1)
    [] [] then_arg (List.nodup_nil) (by simp)
  obtain ⟨k1, k2, _, k4⟩ := collect_finite_domain_invariant tbl (else_arg + 1)
    (collect_finite_domain tbl (then_arg + 1) [] [] then_arg).1
    (collect_finite_domain tbl (then_arg + 1) [] [] then_arg).2 else_arg g1 g2
  have hperm := List.perm_insertionSort (fun a b => a ≤ b)
    (collect_finite_domain tbl (else_arg + 1)
      (collect_finite_domain tbl (then_arg + 1) [] [] then_arg).1
      (collect_finite_domain tbl (then_arg + 1) [] [] then_arg).2 else_arg).2
  have hsorted := List.sorted_insertionSort (fun a b => a ≤ b)
    (collect_finite_domain tbl (else_arg + 1)
      (collect_finite_domain tbl (then_arg + 1) [] [] then_arg).1
      (collect_finite_domain tbl (then_arg + 1) [] [] then_arg).2 else_arg).2
  have hnd : (build_ite_finite_domain tbl then_arg else_arg).Nodup :=
    hperm.nodup_iff.mpr k1
  constructor
  · have hand := (hsorted.and hnd)
    exact hand.imp (fun hab => lt_of_le_of_ne hab.1 hab.2)
  · intro hwf x hx
    exact k4 hwf (g4 hwf (by simp)) x (hperm.mem_iff.mp hx)

theorem sorted_getD_le (dom : List Nat)
    (hs : List.Pairwise (fun a b => a < b) dom)
    (i j : Nat) (hij : i ≤ j) (hj : j < dom.length) :
    dom.getD i 0 ≤ dom.getD j 0 := by
  rcases Nat.lt_or_ge i j with hlt | hge
  · have hi : i < dom.length := lt_trans hlt hj
    rw [List.getD_eq_getElem dom 0 hi, List.getD_eq_getElem dom 0 hj]
    exact le_of_lt (List.pairwise_iff_getElem.mp hs i j hi hj hlt)
  · have hij2 : i = j := le_antisymm hij hge
    rw [hij2]

theorem sorted_getD_lt (dom : List Nat)
    (hs : List.Pairwise (fun a b => a < b) dom)
    (i j : Nat) (hij : i < j) (hj : j < dom.length) :
    dom.getD i 0 < dom.getD j 0 := by
  have hi : i < dom.length := lt_trans hij hj
  rw [List.getD_eq_getElem dom 0 hi, List.getD_eq_getElem dom 0 hj]
  exact List.pairwise_iff_getElem.mp hs i j hi hj hij

theorem finite_domain_search_correct (dom : List Nat) (u : Nat)
    (hs : List.Pairwise (fun a b => a < b) dom) :
    ∀ (fuel l h : Nat), l < h → h ≤ dom.length → h - l ≤ fuel →
    l ≤ finite_domain_search dom u fuel l h ∧
    finite_domain_search dom u fuel l h < h ∧
    ((∃ i, l ≤ i ∧ i < h ∧ dom.getD i 0 = u) ↔
      dom.getD (finite_domain_search dom u fuel l h) 0 = u) := by
  intro fuel
  induction fuel with
  | zero =>
    intro l h hlh hh hfuel
    omega
  | succ fuel ih =>
    intro l h hlh hh hfuel
    simp only [finite_domain_search]
    by_cases hk : (l + h) / 2 = l
    · rw [if_pos hk]
      have hh1 : h = l + 1 := by omega
      refine ⟨le_refl l, by omega, ?_⟩
      constructor
      · rintro ⟨i, hi1, hi2, hi3⟩
        have hil : i = l := by omega
        rw [← hil]
        exact hi3
      · intro hl
        exact ⟨l, le_refl l, by omega, hl⟩
    · rw [if_neg hk]
      have hlk : l < (l + h) / 2 := by omega
      have hkh : (l + h) / 2 < h := by omega
      by_cases hu : u < dom.getD ((l + h) / 2) 0
      · rw [if_pos hu]
        obtain ⟨g1, g2, g3⟩ := ih l ((l + h) / 2) hlk
          (le_of_lt (lt_of_lt_of_le hkh hh)) (by omega)
        refine ⟨g1, lt_trans g2 hkh, ?_⟩
        rw [← g3]
        constructor
        · rintro ⟨i, hi1, hi2, hi3⟩
          refine ⟨i, hi1, ?_, hi3⟩
          by_contra hcon
          push_neg at hcon
          have hle := sorted_getD_le dom hs ((l + h) / 2) i hcon (by omega)
          omega
        · rintro ⟨i, hi1, hi2, hi3⟩
          exact ⟨i, hi1, by omega, hi3⟩
      · rw [if_neg hu]
        obtain ⟨g1, g2, g3⟩ := ih ((l + h) / 2) h hkh hh (by omega)
        refine ⟨by omega, g2, ?_⟩
        rw [← g3]
        constructor
        · rintro ⟨i, hi1, hi2, hi3⟩
          refine ⟨i, ?_, hi2, hi3⟩
          by_contra hcon
          push_neg at hcon
          have hle := sorted_getD_lt dom hs i ((l + h) / 2) hcon (by omega)
          omega
        · rintro ⟨i, hi1, hi2, hi3⟩
          exact ⟨i, by omega, hi2, hi3⟩

theorem term_is_in_finite_domain_correct (dom : List Nat) (u : Nat)
    (hs : List.Pairwise (fun a b => a < b) dom) (hne : dom ≠ []) :
    (term_is_in_finite_domain dom u = true) ↔ u ∈ dom := by
  have hlen : 0 < dom.length := List.length_pos.mpr hne
  obtain ⟨g1, g2, g3⟩ := finite_domain_search_correct dom u hs
    (dom.length + 1) 0 dom.length hlen (le_refl _) (by omega)
  rw [term_is_in_finite_domain, decide_eq_true_iff, ← g3]
  constructor
  · rintro ⟨i, _, hi2, hi3⟩
    rw [← hi3, List.getD_eq_getElem dom 0 hi2]
    exact List.getElem_mem hi2
  · intro hu
    obtain ⟨i, hi, hieq⟩ := List.mem_iff_getElem.mp hu
    refine ⟨i, Nat.zero_le i, hi, ?_⟩
    rw [List.getD_eq_getElem dom 0 hi]
    exact hieq

theorem disjoint_finite_domains_correct :
    ∀ (n : Nat) (d1 d2 : List Nat), d1.length + d2.length ≤ n →
    List.Pairwise (fun a b => a < b) d1 →
    List.Pairwise (fun a b => a < b) d2 →
    ((disjoint_finite_domains d1 d2 = true) ↔ ∀ x ∈ d1, x ∉ d2) := by
  intro n
  induction n with
  | zero =>
    intro d1 d2 hlen h1 h2
    cases d1 with
    | nil => simp [disjoint_finite_domains]
    | cons t1 r1 => simp at hlen
  | succ n ih =>
    intro d1 d2 hlen h1 h2
    cases d1 with
    | nil => simp [disjoint_finite_domains]
    | cons t1 r1 =>
      cases d2 with
      | nil => simp [disjoint_finite_domains]
      | cons t2 r2 =>
        simp only [disjoint_finite_domains]
        by_cases he : t1 = t2
        · rw [if_pos he]
          subst he
          constructor
          · intro hcon
            exact absurd hcon (by simp)
          · intro hall
            exact absurd (List.mem_cons_self t1 r2)
              (hall t1 (List.mem_cons_self t1 r1))
        · by_cases hlt : t1 < t2
          · rw [if_neg he, if_pos hlt]
            have hr1 := (List.pairwise_cons.mp h1).2
            rw [ih r1 (t2 :: r2) (by simp at hlen ⊢; omega) hr1 h2]
            constructor
            · intro hall x hx
              rcases List.mem_cons.mp hx with hx1 | hx2
              · subst hx1
                intro hmem
                rcases List.mem_cons.mp hmem with hm1 | hm2
                · exact he hm1
                · have := (List.pairwise_cons.mp h2).1 x hm2
                  omega
              · exact hall x hx2
            · intro hall x hx
              exact hall x (List.mem_cons_of_mem _ hx)
          · rw [if_neg he, if_neg hlt]
            have hgt : t2 < t1 := by omega
            have hr2 := (List.pairwise_cons.mp h2).2
            rw [ih (t1 :: r1) r2 (by simp at hlen ⊢; omega) h1 hr2]
            constructor
            · intro hall x hx hmem
              rcases List.mem_cons.mp hmem with hm1 | hm2
              · subst hm1
                rcases List.mem_cons.mp hx with hx1 | hx2
                · exact he hx1.symm
                · have := (List.pairwise_cons.mp h1).1 x hx2
                  omega
              · exact hall x hx hm2
            · intro hall x hx hmem
              exact hall x hx (List.mem_cons_of_mem _ hmem)

/-! ## Claim theorems -/

/-- C1: adding power product `p` with coefficient `a` to a buffer holding
no entry for `p`, then adding `p` again with coefficient `c`, leaves the
buffer canonical (so no zero-coefficient entry is stored) with exactly one
entry for `p`, of coefficient `a + c`, and no entry for `p` at all when
`a + c = 0`. -/
theorem C1_merge_correctness (b : rba_buffer_t) (p : pprod_t) (a c : ℚ)
    (hb : rba_canonical b) (hp : rba_lookup b p = 0) :
    rba_canonical (rba_buffer_add_mono (rba_buffer_add_mono b a p) c p) ∧
    (a + c ≠ 0 →
      rba_entries_for (rba_buffer_add_mono (rba_buffer_add_mono b a p) c p) p
        = [(p, a + c)]) ∧
    (a + c = 0 →
      rba_entries_for (rba_buffer_add_mono (rba_buffer_add_mono b a p) c p) p
        = []) := by
  have h1 : rba_canonical (rba_buffer_add_mono b a p) :=
    rba_canonical_add_mono b a p hb
  have h2 : rba_canonical (rba_buffer_add_mono (rba_buffer_add_mono b a p) c p) :=
    rba_canonical_add_mono _ c p h1
  have hl1 := rba_lookup_add_mono b a p hb.1 p
  have hl2 := rba_lookup_add_mono (rba_buffer_add_mono b a p) c p h1.1 p
  rw [if_pos rfl] at hl1 hl2
  rw [hl1, hp] at hl2
  have hval : rba_lookup (rba_buffer_add_mono (rba_buffer_add_mono b a p) c p) p
      = a + c := by
    rw [hl2]
    ring
  refine ⟨h2, ?_, ?_⟩
  · intro hne
    rw [rba_entries_for_eq _ p h2, hval, if_neg hne]
  · intro heq
    rw [rba_entries_for_eq _ p h2, hval, if_pos heq]

/-- Witness for C1 at `b = []`, `p = x0`, `a = 2`, `c = 3`. -/
theorem C1_merge_correctness_witness :
    rba_canonical (rba_buffer_add_mono (rba_buffer_add_mono [] 2 (var_pp 0)) 3 (var_pp 0)) ∧
    ((2 : ℚ) + 3 ≠ 0 →
      rba_entries_for
          (rba_buffer_add_mono (rba_buffer_add_mono [] 2 (var_pp 0)) 3 (var_pp 0))
          (var_pp 0)
        = [(var_pp 0, 2 + 3)]) ∧
    ((2 : ℚ) + 3 = 0 →
      rba_entries_for
          (rba_buffer_add_mono (rba_buffer_add_mono [] 2 (var_pp 0)) 3 (var_pp 0))
          (var_pp 0)
        = []) :=
  C1_merge_correctness [] (var_pp 0) 2 3 ⟨List.Pairwise.nil, by simp⟩ rfl

/-- C2 as stated is false: applying the same multiset of bridge operations
in two different orders can give different canonical polynomials once a
multiplicative operation is involved.  Adding the constant 1 and then
multiplying by the constant 0 empties the buffer; the reverse order leaves
the polynomial 1. -/
theorem C2_counterexample :
    List.Perm
      [arith_op_t.add_op (arith_term_t.const 1),
        arith_op_t.mul_op (arith_term_t.const 0)]
      [arith_op_t.mul_op (arith_term_t.const 0),
        arith_op_t.add_op (arith_term_t.const 1)] ∧
    rba_buffer_apply_ops []
        [arith_op_t.add_op (arith_term_t.const 1),
          arith_op_t.mul_op (arith_term_t.const 0)]
      ≠ rba_buffer_apply_ops []
        [arith_op_t.mul_op (arith_term_t.const 0),
          arith_op_t.add_op (arith_term_t.const 1)] :=
  ⟨List.Perm.swap _ _ _, by decide⟩

/-- C2 amended: restricted to the additive bridge operations (add,
subtract, scaled add), the canonical output is order independent — any two
permutations of the same operation list applied to the same canonical
buffer produce the same canonical polynomial; in particular adding E1 then
E2 to an empty buffer equals adding E2 then E1. -/
theorem C2_additive_commutativity (ops1 ops2 : List arith_op_t)
    (hperm : List.Perm ops1 ops2)
    (hadd : ∀ op ∈ ops1, arith_op_additive op = true)
    (b : rba_buffer_t) (hb : rba_canonical b) :
    rba_buffer_apply_ops b ops1 = rba_buffer_apply_ops b ops2 := by
  have hadd2 : ∀ op ∈ ops2, arith_op_additive op = true :=
    fun o ho => hadd o (hperm.mem_iff.mpr ho)
  obtain ⟨hc1, hl1⟩ := apply_ops_char ops1 b hb hadd
  obtain ⟨hc2, hl2⟩ := apply_ops_char ops2 b hb hadd2
  apply rba_canonical_ext _ _ hc1 hc2
  intro p
  rw [hl1 p, hl2 p]
  congr 1
  exact (hperm.map (fun op => op_contrib op p)).sum_eq

/-- Witness for the amended C2: adding the constant 1 and the power product
x0 to the empty buffer, in both orders. -/
theorem C2_additive_commutativity_witness :
    rba_buffer_apply_ops []
        [arith_op_t.add_op (arith_term_t.const 1),
          arith_op_t.add_op (arith_term_t.pp (var_pp 0))]
      = rba_buffer_apply_ops []
        [arith_op_t.add_op (arith_term_t.pp (var_pp 0)),
          arith_op_t.add_op (arith_term_t.const 1)] :=
  C2_additive_commutativity _ _ (List.Perm.swap _ _ _)
    (by decide) [] ⟨List.Pairwise.nil, by simp⟩

/-- C3 as stated is false: the order-mismatch guard is the C statement
`assert(b->ptbl == table->pprods)`, which a release build (NDEBUG defined)
compiles out — with mismatched order references (0 vs 1) the call is not
rejected and the tree is mutated. -/
theorem C3_counterexample :
    rba_buffer_add_term_checked true 0 1 [] (arith_term_t.const 1)
      = some [(empty_pp, 1)] ∧ (0 : Nat) ≠ 1 := by
  constructor
  · decide
  · decide

/-- C3 amended: the guard is an equality check on the two order references
executed before any tree mutation, but only in builds with assertions
enabled (NDEBUG not defined); there a mismatch rejects the call. -/
theorem C3_assert_guard (b_ptbl table_pprods : Nat) (b : rba_buffer_t)
    (t : arith_term_t) (hmm : b_ptbl ≠ table_pprods) :
    rba_buffer_add_term_checked false b_ptbl table_pprods b t = none := by
  rw [rba_buffer_add_term_checked, if_pos ⟨rfl, hmm⟩]

/-- Witness for the amended C3 at mismatched references 0 and 1. -/
theorem C3_assert_guard_witness :
    rba_buffer_add_term_checked false 0 1 [] (arith_term_t.const 1) = none :=
  C3_assert_guard 0 1 [] (arith_term_t.const 1) (by decide)

/-- C4: the bridge switch is exhaustive and one-to-one over the four
shapes — POWER_PRODUCT to add_pp, ARITH_CONSTANT to add_const, ARITH_POLY
to add_monarray, and every other arithmetic term kind to add_var — and the
add and sub entry points follow that dispatch on every term. -/
theorem C4_dispatch_exhaustive :
    (∀ k : term_kind_t,
      (rba_bridge_dispatch k = .prim_add_pp ∨
        rba_bridge_dispatch k = .prim_add_const ∨
        rba_bridge_dispatch k = .prim_add_monarray ∨
        rba_bridge_dispatch k = .prim_add_var) ∧
      (rba_bridge_dispatch k = .prim_add_pp ↔ k = .POWER_PRODUCT) ∧
      (rba_bridge_dispatch k = .prim_add_const ↔ k = .ARITH_CONSTANT) ∧
      (rba_bridge_dispatch k = .prim_add_monarray ↔ k = .ARITH_POLY) ∧
      (rba_bridge_dispatch k = .prim_add_var ↔
        (k ≠ .POWER_PRODUCT ∧ k ≠ .ARITH_CONSTANT ∧ k ≠ .ARITH_POLY))) ∧
    (∀ (b : rba_buffer_t) (p : pprod_t),
      rba_buffer_add_term b (.pp p) = rba_buffer_add_pp b p ∧
      rba_buffer_sub_term b (.pp p) = rba_buffer_sub_pp b p) ∧
    (∀ (b : rba_buffer_t) (c : ℚ),
      rba_buffer_add_term b (.const c) = rba_buffer_add_const b c ∧
      rba_buffer_sub_term b (.const c) = rba_buffer_sub_const b c) ∧
    (∀ (b : rba_buffer_t) (m : monarray_t),
      rba_buffer_add_term b (.poly m) = rba_buffer_add_monarray b m ∧
      rba_buffer_sub_term b (.poly m) = rba_buffer_sub_monarray b m) ∧
    (∀ (b : rba_buffer_t) (v : Nat) (k : other_kind_t),
      rba_buffer_add_term b (.var v k) = rba_buffer_add_var b v ∧
      rba_buffer_sub_term b (.var v k) = rba_buffer_sub_var b v) :=
  ⟨by decide, fun b p => ⟨rfl, rfl⟩, fun b c => ⟨rfl, rfl⟩,
    fun b m => ⟨rfl, rfl⟩, fun b v k => ⟨rfl, rfl⟩⟩

/-- C5: multiplying the buffer by `t^0` multiplies it by the constant 1 and
leaves its monomials and coefficients unchanged, for every term shape. -/
theorem C5_mul_power_zero (b : rba_buffer_t) (t : arith_term_t) :
    rba_buffer_mul_term_power b t 0 = b := by
  cases t with
  | pp p => simp [rba_buffer_mul_term_power, pprod_exp, rba_buffer_mul_pp]
  | const c =>
    simp [rba_buffer_mul_term_power, q_mulexp, rba_buffer_mul_const, one_mul]
  | poly m => rfl
  | var v k =>
    simp [rba_buffer_mul_term_power, pprod_varexp, rba_buffer_mul_pp,
      empty_pp, List.replicate]

/-- C6: after get-or-insert for `p`, a find for `p` returns the very node
that get-or-insert returned; the new-node flag is set exactly when find
returned the sentinel (node 0) just before the call; and on a hit the
store is unchanged and the returned node is the one found. -/
theorem C6_get_find (s : rba_nodes_t) (p : pprod_t) (hs : rba_nodes_wf s) :
    rba_find_node (rba_get_node s p).1 p = (rba_get_node s p).2.1 ∧
    ((rba_get_node s p).2.2 = true ↔ rba_find_node s p = 0) ∧
    (rba_find_node s p ≠ 0 →
      (rba_get_node s p).1 = s ∧ (rba_get_node s p).2.1 = rba_find_node s p) := by
  by_cases h : rba_find_node s p = 0
  · have hget : rba_get_node s p
        = ({ node_entries := (p, s.next_node) :: s.node_entries,
             next_node := s.next_node + 1 }, s.next_node, true) := by
      rw [rba_get_node]
      simp [h]
    rw [hget]
    refine ⟨?_, by simp [h], fun hcon => absurd h hcon⟩
    simp [rba_find_node, List.find?]
  · have hget : rba_get_node s p = (s, rba_find_node s p, false) := by
      rw [rba_get_node]
      simp [h]
    rw [hget]
    exact ⟨rfl, by simp [h], fun _ => ⟨rfl, rfl⟩⟩

/-- Witness for C6 at the empty well-formed store and `p` the empty power
product. -/
theorem C6_get_find_witness :
    rba_find_node (rba_get_node { node_entries := [], next_node := 1 } empty_pp).1 empty_pp
        = (rba_get_node { node_entries := [], next_node := 1 } empty_pp).2.1 ∧
    ((rba_get_node { node_entries := [], next_node := 1 } empty_pp).2.2 = true ↔
      rba_find_node { node_entries := [], next_node := 1 } empty_pp = 0) ∧
    (rba_find_node { node_entries := [], next_node := 1 } empty_pp ≠ 0 →
      (rba_get_node { node_entries := [], next_node := 1 } empty_pp).1
          = { node_entries := [], next_node := 1 } ∧
      (rba_get_node { node_entries := [], next_node := 1 } empty_pp).2.1
          = rba_find_node { node_entries := [], next_node := 1 } empty_pp) :=
  C6_get_find { node_entries := [], next_node := 1 } empty_pp
    ⟨le_refl 1, by simp⟩

/-- C7: releasing a buffer clears its contents and pushes it to the front
of the free list; the immediately following allocation returns exactly
that cleared buffer and restores the store; allocating from any non-empty
pool returns the head of the free list (the most recently released entry);
allocating from an empty pool makes a fresh buffer holding no elements.
Stated for the integer store and the pointer store. -/
theorem C7_release_reuse :
    (∀ (s : buffer_store_t Int) (b : buffer_elem_t Int) (n : Nat),
      free_ibuffer s b
          = { s with free_list := { b with data := [] } :: s.free_list } ∧
      alloc_ibuffer (free_ibuffer s b) n
          = (s, { elem_id := b.elem_id, data := [] })) ∧
    (∀ (s : buffer_store_t Int) (n : Nat) (e : buffer_elem_t Int)
        (rest : List (buffer_elem_t Int)), s.free_list = e :: rest →
      alloc_ibuffer s n = ({ s with free_list := rest }, e)) ∧
    (∀ (s : buffer_store_t Int) (n : Nat), s.free_list = [] →
      alloc_ibuffer s n
        = ({ s with fresh := s.fresh + 1 }, { elem_id := s.fresh, data := [] })) ∧
    (∀ (s : buffer_store_t Nat) (b : buffer_elem_t Nat) (n : Nat),
      free_pbuffer s b
          = { s with free_list := { b with data := [] } :: s.free_list } ∧
      alloc_pbuffer (free_pbuffer s b) n
          = (s, { elem_id := b.elem_id, data := [] })) ∧
    (∀ (s : buffer_store_t Nat) (n : Nat) (e : buffer_elem_t Nat)
        (rest : List (buffer_elem_t Nat)), s.free_list = e :: rest →
      alloc_pbuffer s n = ({ s with free_list := rest }, e)) ∧
    (∀ (s : buffer_store_t Nat) (n : Nat), s.free_list = [] →
      alloc_pbuffer s n
        = ({ s with fresh := s.fresh + 1 }, { elem_id := s.fresh, data := [] })) := by
  refine ⟨fun s b n => ⟨rfl, rfl⟩, ?_, ?_, fun s b n => ⟨rfl, rfl⟩, ?_, ?_⟩
  · intro s n e rest h
    cases s with
    | mk fl fr =>
      cases h
      rfl
  · intro s n h
    cases s with
    | mk fl fr =>
      cases h
      rfl
  · intro s n e rest h
    cases s with
    | mk fl fr =>
      cases h
      rfl
  · intro s n h
    cases s with
    | mk fl fr =>
      cases h
      rfl

/-- Witness for C7: allocation after a release returns the released buffer,
cleared, at a concrete store. -/
theorem C7_release_reuse_witness :
    alloc_ibuffer
        (free_ibuffer { free_list := [], fresh := 4 } { elem_id := 2, data := [7] }) 9
      = ({ free_list := [], fresh := 4 }, { elem_id := 2, data := [] }) :=
  (C7_release_reuse.1 { free_list := [], fresh := 4 } { elem_id := 2, data := [7] } 9).2

/-- C8 as stated is false: a buffer still checked out when the store is
torn down is not freed.  From a fresh store, `alloc_ibuffer` hands out
buffer 0 and leaves the free list empty; tearing the store down then frees
nothing, so the allocated buffer 0 is never freed by the teardown. -/
theorem C8_counterexample :
    (alloc_ibuffer init_buffer_store 10).2 = { elem_id := 0, data := [] } ∧
    (delete_ibuffer_store (alloc_ibuffer init_buffer_store 10).1).1 = [] :=
  ⟨rfl, rfl⟩

/-- C8 amended: teardown frees exactly the entries sitting in the free
list, in list order, and leaves the free list empty; buffers checked out
and not yet returned are not freed by teardown.  Stated for both stores. -/
theorem C8_teardown (s : buffer_store_t Int) (s2 : buffer_store_t Nat) :
    (delete_ibuffer_store s).1 = s.free_list ∧
    (delete_ibuffer_store s).2.free_list = [] ∧
    (delete_pbuffer_store s2).1 = s2.free_list ∧
    (delete_pbuffer_store s2).2.free_list = [] :=
  ⟨delete_store_loop_id s.free_list, rfl, delete_store_loop_id s2.free_list, rfl⟩

/-- C9: every finite domain built by `build_ite_finite_domain` is a
duplicate-free array in strictly increasing term order, of constant terms
whenever the table's memoized `extra` domains hold constant terms (the
invariant `special_ite_get_finite_domain` maintains, since it only ever
stores domains it built itself); under that sortedness the binary search
of `term_is_in_finite_domain` returns true exactly on membership, and the
linear merge of `disjoint_finite_domains` returns true exactly when the
domains share no element. -/
theorem C9_finite_domains :
    (∀ (tbl : ite_term_table_t) (then_arg else_arg : Nat),
      List.Pairwise (fun x y => x < y) (build_ite_finite_domain tbl then_arg else_arg) ∧
      (ite_table_extras_wf tbl →
        ∀ x ∈ build_ite_finite_domain tbl then_arg else_arg, tbl x = .const_term)) ∧
    (∀ (dom : List Nat) (u : Nat),
      List.Pairwise (fun x y => x < y) dom → dom ≠ [] →
      ((term_is_in_finite_domain dom u = true) ↔ u ∈ dom)) ∧
    (∀ d1 d2 : List Nat,
      List.Pairwise (fun x y => x < y) d1 →
      List.Pairwise (fun x y => x < y) d2 →
      ((disjoint_finite_domains d1 d2 = true) ↔ ∀ x ∈ d1, x ∉ d2)) :=
  ⟨fun tbl a1 a2 => build_ite_finite_domain_sorted tbl a1 a2,
    fun dom u hs hne => term_is_in_finite_domain_correct dom u hs hne,
    fun d1 d2 h1 h2 =>
      disjoint_finite_domains_correct (d1.length + d2.length) d1 d2 (le_refl _) h1 h2⟩

/-- A small term table for the C9 witness: term 5 is a cold if-then-else
`(ite c 1 2)` (its `extra` is NULL), term 7 is a warm if-then-else whose
memoized domain `[1, 2]` is already attached, and every other term is a
constant. -/
def sample_ite_table : ite_term_table_t := fun t =>
  if t = 5 then ite_term_kind_t.ite_special 1 2 none
  else if t = 7 then ite_term_kind_t.ite_special 3 5 (some [1, 2])
  else ite_term_kind_t.const_term

/-- The sample table satisfies the memoization invariant: its only
memoized domain is `[1, 2]`, two constants. -/
theorem sample_ite_table_wf : ite_table_extras_wf sample_ite_table := by
  intro t a1 a2 dom h
  by_cases h5 : t = 5
  · simp [sample_ite_table, h5] at h
  · by_cases h7 : t = 7
    · simp [sample_ite_table, h5, h7] at h
      obtain ⟨ha1, ha2, hdom⟩ := h
      subst hdom
      decide
    · simp [sample_ite_table, h5, h7] at h

/-- Witness for C9 at a concrete table — exercising both the memoized and
the recursive path of `collect_finite_domain` — and at concrete sorted
domains. -/
theorem C9_finite_domains_witness :
    (List.Pairwise (fun x y => x < y) (build_ite_finite_domain sample_ite_table 7 5) ∧
      ∀ x ∈ build_ite_finite_domain sample_ite_table 7 5,
        sample_ite_table x = .const_term) ∧
    ((term_is_in_finite_domain [3, 5] 5 = true) ↔ 5 ∈ [3, 5]) ∧
    ((disjoint_finite_domains [1, 4] [2, 3] = true) ↔ ∀ x ∈ [1, 4], x ∉ [2, 3]) :=
  ⟨⟨(C9_finite_domains.1 sample_ite_table 7 5).1,
      (C9_finite_domains.1 sample_ite_table 7 5).2 sample_ite_table_wf⟩,
    C9_finite_domains.2.1 [3, 5] 5 (by decide) (by decide),
    C9_finite_domains.2.2 [1, 4] [2, 3] (by decide) (by decide)⟩

/-- C10: `rba_buffer_add_const_times_term` never modifies the coefficient
cell `a`: in every shape case — in particular the constant case, where the
product `a * c` is computed in the local rational `q` — the cell holds the
same value after the call as before. -/
theorem C10_coefficient_preserved (b : rba_buffer_t) (a : ℚ) (t : arith_term_t) :
    (rba_buffer_add_const_times_term b a t).2 = a := by
  cases t <;> rfl

end YicesRBA
